import Mathlib

/-!
Verification of the mini-batch iteration subsystem of theanolm
(`src/theanolm/batchiterator.py`: `BatchIterator`, `OrderedBatchIterator`)
and of the freeze layer (`src/theanolm/network/freezelayer.py`).

Modelling conventions for the shallow embedding:

* A corpus line is modelled after the only two uses the code makes of it,
  `line.split()` and the `line == ''` end-of-file test: a `Line` is the list
  of whitespace-delimited words of the line, and the `''` sentinel returned
  by `readline` at end of corpus is modelled as `none` (resp. the end of the
  stream of lines).  A blank corpus line (`"\n"`) is the empty word list
  `[]`, which is distinct from the end-of-file sentinel, exactly as in
  Python where `"\n" != ''`.
* The external dictionary's `text_to_ids` is an opaque parameter
  `dict : Line → List Nat` (word ids are non-negative integers).
* numpy matrices are lists of rows: `word_ids` has `minibatch_length` rows,
  row `t` holding column entries for each of the `len(sequences)` sequences.
  `mask` holds float values that are exactly 0.0 or 1.0; they are modelled
  by the naturals 0 and 1.
* `numpy.max` applied to an empty list raises `ValueError` ("zero-size array
  to reduction operation maximum"); this error path is modelled by `Option`
  (`none` = the raised exception propagating out of `_prepare_minibatch`).
* Python file objects are modelled at line granularity: the corpus is the
  list of its lines and a file position is a line index.  `seek(0)` is
  position `0`; `readline` at position `p` yields line `p` (advancing to
  `p + 1`) or `''` when `p` is at or past the end, leaving the position
  unchanged.  Byte offsets stored in `line_starts` are line indices under
  this abstraction.
-/

namespace Theanolm

/-- A corpus line, as the list of its whitespace-delimited words
(the result of `line.split()` at batchiterator.py line 61). -/
abbrev Line := List String

/-! ## `BatchIterator._prepare_minibatch` (batchiterator.py lines 84-118) -/

/-- `numpy.max` over a list of naturals.  On an empty list numpy raises
`ValueError: zero-size array to reduction operation maximum which has no
identity`; the raised exception is modelled as `none`. -/
def numpy_max : List Nat → Option Nat
  | [] => none
  | x :: xs => some (xs.foldl max x)

/-- The `word_ids` matrix of `_prepare_minibatch` (lines 112, 114-115):
a `minibatch_length × len(sequences)` zero matrix into which each sequence
is written column-wise, `word_ids[:len(s), i] = s`.  Entry `(t, i)` is
therefore `sequences[i][t]` for `t < len(sequences[i])` and `0` afterwards. -/
def word_ids_matrix (sequences : List (List Nat)) (minibatch_length : Nat) :
    List (List Nat) :=
  (List.range minibatch_length).map
    (fun t => sequences.map (fun s => if t < s.length then s.getD t 0 else 0))

/-- The `mask` matrix of `_prepare_minibatch` (lines 113, 116): a zero matrix
of the same shape with `mask[:len(s) + 1, i] = 1.0`.  The float entries are
exactly 0.0 or 1.0 and are modelled by the naturals 0 and 1. -/
def mask_matrix (sequences : List (List Nat)) (minibatch_length : Nat) :
    List (List Nat) :=
  (List.range minibatch_length).map
    (fun t => sequences.map (fun s => if t < s.length + 1 then 1 else 0))

/-- `BatchIterator._prepare_minibatch` (lines 84-118): computes
`minibatch_length = numpy.max(sequence_lengths) + 1` and returns the
`(word_ids, mask)` pair.  `none` models the `ValueError` that
`numpy.max` raises when `sequences` is empty (line 110). -/
def prepare_minibatch (sequences : List (List Nat)) :
    Option (List (List Nat) × List (List Nat)) :=
  match numpy_max (sequences.map List.length) with
  | none => none
  | some m =>
      some (word_ids_matrix sequences (m + 1), mask_matrix sequences (m + 1))

/-! ### Helper lemmas about `numpy_max` and matrix indexing -/

lemma foldl_max_spec (xs : List Nat) (x : Nat) :
    x ≤ xs.foldl max x ∧ (∀ y ∈ xs, y ≤ xs.foldl max x) ∧
      (xs.foldl max x = x ∨ xs.foldl max x ∈ xs) := by
  induction xs generalizing x with
  | nil => simp
  | cons y ys ih =>
    have h := ih (max x y)
    refine ⟨le_trans (le_max_left x y) h.1, ?_, ?_⟩
    · intro z hz
      rcases List.mem_cons.mp hz with rfl | hz
      · exact le_trans (le_max_right x z) h.1
      · exact h.2.1 z hz
    · rcases h.2.2 with heq | hmem
      · rw [List.foldl_cons, heq]
        rcases max_choice x y with h1 | h1
        · exact Or.inl h1
        · exact Or.inr (by simp [h1])
      · exact Or.inr (List.mem_cons_of_mem _ (by simpa using hmem))

lemma numpy_max_spec {l : List Nat} {m : Nat} (h : numpy_max l = some m) :
    (∀ y ∈ l, y ≤ m) ∧ m ∈ l := by
  cases l with
  | nil => simp [numpy_max] at h
  | cons x xs =>
    have hspec := foldl_max_spec xs x
    have hm : xs.foldl max x = m := by simpa [numpy_max] using h
    refine ⟨?_, ?_⟩
    · intro y hy
      rcases List.mem_cons.mp hy with rfl | hy
      · exact hm ▸ hspec.1
      · exact hm ▸ hspec.2.1 y hy
    · rcases hspec.2.2 with heq | hmem
      · rw [← hm, heq]; exact List.mem_cons_self x xs
      · rw [← hm]; exact List.mem_cons_of_mem _ hmem

lemma getD_map_range {α : Type} (f : Nat → α) (d : α) {T t : Nat} (h : t < T) :
    ((List.range T).map f).getD t d = f t := by
  rw [List.getD_eq_getElem?_getD, List.getElem?_map, List.getElem?_range h]
  rfl

lemma getD_map_list {α β : Type} (f : α → β) (l : List α) (db : β) (da : α)
    {i : Nat} (h : i < l.length) :
    (l.map f).getD i db = f (l.getD i da) := by
  rw [List.getD_eq_getElem?_getD, List.getElem?_map,
    List.getElem?_eq_getElem h, List.getD_eq_getElem?_getD,
    List.getElem?_eq_getElem h]
  rfl

/-! ## `BatchIterator.__next__` (batchiterator.py lines 40-76)

The `while True` read loop (lines 57-66) consumes lines one `_readline` call
at a time.  We embed it as a structurally recursive function over the stream
of lines the reader will yield: `some line` for a `_readline` call returning
a line, `none` for a call returning `''` while still advancing the reader
(this happens only in the ordered variant when a stored offset points at or
past the end of the corpus); the end of the stream is a `_readline` call
returning `''` without advancing the reader.  The function returns the
accumulated `sequences`, whether the loop ended by end-of-corpus (`true`) or
by a full batch (`false`, line 66), and the number of `_readline` calls that
advanced the reader. -/

/-- The skip test of line 62: `max_sequence_length` is set and the word count
of the line exceeds it. -/
def skipLine (max_sequence_length : Option Nat) (line : Line) : Bool :=
  match max_sequence_length with
  | some m => decide (m < line.length)
  | none => false

/-- The read loop of `__next__` (lines 57-66), over the stream of lines the
reader yields.  `dict` is `self.dictionary.text_to_ids`. -/
def readLoop (dict : Line → List Nat) (batch_size : Nat)
    (max_sequence_length : Option Nat) :
    List (Option Line) → List (List Nat) → List (List Nat) × Bool × Nat
  | [], sequences => (sequences, true, 0)
  | none :: _, sequences => (sequences, true, 1)
  | some line :: rest, sequences =>
    if skipLine max_sequence_length line then
      let r := readLoop dict batch_size max_sequence_length rest sequences
      (r.1, r.2.1, r.2.2 + 1)
    else
      let sequences' := sequences ++ [dict line]
      if batch_size ≤ sequences'.length then
        (sequences', false, 1)
      else
        let r := readLoop dict batch_size max_sequence_length rest sequences'
        (r.1, r.2.1, r.2.2 + 1)

/-- State of the sequential `BatchIterator`: the file read position (a line
index under the modelling abstraction) and the `end_of_file` flag. -/
structure SeqState where
  pos : Nat
  end_of_file : Bool
  deriving DecidableEq, Repr

/-- `BatchIterator._reset` (lines 78-79): `self.input_file.seek(0)`. -/
def SeqState.reset (s : SeqState) : SeqState :=
  { s with pos := 0 }

/-- The stream of lines `BatchIterator._readline` (lines 81-82) yields when
called repeatedly from position `pos`: the remaining corpus lines, then
end-of-file. -/
def seqStream (corpus : List Line) (pos : Nat) : List (Option Line) :=
  (corpus.drop pos).map some

/-- `BatchIterator.__next__` (lines 40-76) for the sequential iterator.
`some sequences` stands for `return self._prepare_minibatch(sequences)`
(the argument list is returned so the claims can speak about it);
`none` stands for `raise StopIteration`. -/
def seqNext (dict : Line → List Nat) (corpus : List Line) (batch_size : Nat)
    (max_sequence_length : Option Nat) (s : SeqState) :
    Option (List (List Nat)) × SeqState :=
  if s.end_of_file then
    (none, SeqState.reset { s with end_of_file := false })
  else
    match readLoop dict batch_size max_sequence_length
        (seqStream corpus s.pos) [] with
    | (sequences, false, n) => (some sequences, { s with pos := s.pos + n })
    | (sequences, true, n) =>
      if sequences.isEmpty then
        (none, SeqState.reset { s with pos := s.pos + n })
      else
        (some sequences, { pos := s.pos + n, end_of_file := true })

/-- State of the `OrderedBatchIterator` (lines 120-167): the ordering list
`self.line_starts`, the traversal index `self.next_line`, the underlying
file object's read position (`filepos`, a line index), and the inherited
`end_of_file` flag. -/
structure OrdState where
  line_starts : List Nat
  next_line : Nat
  filepos : Nat
  end_of_file : Bool
  deriving DecidableEq, Repr

/-- `OrderedBatchIterator._reset` (lines 157-158): `self.next_line = 0`. -/
def OrdState.reset (s : OrdState) : OrdState :=
  { s with next_line := 0 }

/-- `OrderedBatchIterator._readline` (lines 160-167): if the traversal index
has reached the end of the ordering list, return `''`; otherwise seek to the
stored offset, read one line there (a seek at or past the end of the corpus
makes `readline` return `''` and leaves the position at the seek target),
advance the traversal index by one, and return the line. -/
def ordReadline (corpus : List Line) (s : OrdState) : Option Line × OrdState :=
  if s.line_starts.length ≤ s.next_line then
    (none, s)
  else
    match corpus[s.line_starts.getD s.next_line 0]? with
    | some line =>
        (some line, { s with next_line := s.next_line + 1,
                             filepos := s.line_starts.getD s.next_line 0 + 1 })
    | none =>
        (none, { s with next_line := s.next_line + 1,
                        filepos := s.line_starts.getD s.next_line 0 })

/-- The stream of lines repeated `OrderedBatchIterator._readline` calls yield
from state `s`: one element per remaining ordering-list entry, `some` the
corpus line at that offset or `none` when the offset is at or past the end of
the corpus, then end-of-stream once the traversal index reaches the end of
the ordering list. -/
def ordStream (corpus : List Line) (s : OrdState) : List (Option Line) :=
  (s.line_starts.drop s.next_line).map (fun off => corpus[off]?)

/-- Net effect on an `OrdState` of `n` consecutive `_readline` calls that
advanced the reader: the traversal index moves forward by `n`, and the file
position ends just after the last offset read (or at it, if that offset was
at or past the end of the corpus). -/
def ordAdvance (corpus : List Line) (s : OrdState) (n : Nat) : OrdState :=
  { s with
    next_line := s.next_line + n,
    filepos :=
      if n = 0 then s.filepos
      else
        let off := s.line_starts.getD (s.next_line + n - 1) 0
        if off < corpus.length then off + 1 else off }

/-- `__next__` (lines 40-76) as inherited by `OrderedBatchIterator`: the same
control flow as `seqNext`, with `_readline` and `_reset` dispatching to the
ordered variants. -/
def ordNext (dict : Line → List Nat) (corpus : List Line) (batch_size : Nat)
    (max_sequence_length : Option Nat) (s : OrdState) :
    Option (List (List Nat)) × OrdState :=
  if s.end_of_file then
    (none, OrdState.reset { s with end_of_file := false })
  else
    match readLoop dict batch_size max_sequence_length
        (ordStream corpus s) [] with
    | (sequences, false, n) => (some sequences, ordAdvance corpus s n)
    | (sequences, true, n) =>
      if sequences.isEmpty then
        (none, OrdState.reset (ordAdvance corpus s n))
      else
        (some sequences, { ordAdvance corpus s n with end_of_file := true })

/-! ### Lemmas about the read loop -/

/-- Unfolding equation: end of stream. -/
lemma readLoop_nil (dict : Line → List Nat) (bs : Nat) (msl : Option Nat)
    (acc : List (List Nat)) : readLoop dict bs msl [] acc = (acc, true, 0) :=
  rfl

/-- Unfolding equation: a `_readline` call that returned `''` after
advancing the reader. -/
lemma readLoop_none (dict : Line → List Nat) (bs : Nat) (msl : Option Nat)
    (rest : List (Option Line)) (acc : List (List Nat)) :
    readLoop dict bs msl (none :: rest) acc = (acc, true, 1) :=
  rfl

/-- Unfolding equation: a line that fails the length test is skipped and
reading continues (line 63, `continue`). -/
lemma readLoop_skip (dict : Line → List Nat) (bs : Nat) (msl : Option Nat)
    (line : Line) (rest : List (Option Line)) (acc : List (List Nat))
    (h : skipLine msl line = true) :
    readLoop dict bs msl (some line :: rest) acc =
      ((readLoop dict bs msl rest acc).1,
       (readLoop dict bs msl rest acc).2.1,
       (readLoop dict bs msl rest acc).2.2 + 1) := by
  simp [readLoop, h]

/-- Unfolding equation: an accumulated line that fills the batch makes the
loop return the batch at once (lines 64-66). -/
lemma readLoop_keep_full (dict : Line → List Nat) (bs : Nat)
    (msl : Option Nat) (line : Line) (rest : List (Option Line))
    (acc : List (List Nat)) (h : skipLine msl line = false)
    (hfull : bs ≤ acc.length + 1) :
    readLoop dict bs msl (some line :: rest) acc =
      (acc ++ [dict line], false, 1) := by
  simp only [readLoop, h, Bool.false_eq_true, if_false]
  rw [if_pos (by simpa using hfull)]

/-- Unfolding equation: an accumulated line that leaves the batch under
`batch_size` lets the loop continue (lines 64-65 falling through). -/
lemma readLoop_keep (dict : Line → List Nat) (bs : Nat) (msl : Option Nat)
    (line : Line) (rest : List (Option Line)) (acc : List (List Nat))
    (h : skipLine msl line = false) (hfull : ¬ bs ≤ acc.length + 1) :
    readLoop dict bs msl (some line :: rest) acc =
      ((readLoop dict bs msl rest (acc ++ [dict line])).1,
       (readLoop dict bs msl rest (acc ++ [dict line])).2.1,
       (readLoop dict bs msl rest (acc ++ [dict line])).2.2 + 1) := by
  simp only [readLoop, h, Bool.false_eq_true, if_false]
  rw [if_neg (by simpa using hfull)]

/-- Every sequence the read loop returns beyond its accumulator is the
dictionary image of some line that passed the skip test. -/
lemma readLoop_mem (dict : Line → List Nat) (bs : Nat) (msl : Option Nat) :
    ∀ (stream : List (Option Line)) (acc : List (List Nat)) (q : List Nat),
      q ∈ (readLoop dict bs msl stream acc).1 →
      q ∈ acc ∨ ∃ l : Line, skipLine msl l = false ∧ q = dict l := by
  intro stream
  induction stream with
  | nil => intro acc q hq; exact Or.inl (by simpa [readLoop_nil] using hq)
  | cons o rest ih =>
    intro acc q hq
    cases o with
    | none => exact Or.inl (by simpa [readLoop_none] using hq)
    | some line =>
      rcases Bool.eq_false_or_eq_true (skipLine msl line) with hskip | hskip
      · exact ih acc q
          (by simpa [readLoop_skip dict bs msl line rest acc hskip] using hq)
      · by_cases hfull : bs ≤ acc.length + 1
        · have hq' : q ∈ acc ++ [dict line] := by
            simpa [readLoop_keep_full dict bs msl line rest acc hskip hfull]
              using hq
          rcases List.mem_append.mp hq' with h | h
          · exact Or.inl h
          · exact Or.inr ⟨line, hskip, by simpa using h⟩
        · have hq' := ih (acc ++ [dict line]) q
            (by simpa [readLoop_keep dict bs msl line rest acc hskip hfull]
              using hq)
          rcases hq' with h | h
          · rcases List.mem_append.mp h with h1 | h1
            · exact Or.inl h1
            · exact Or.inr ⟨line, hskip, by simpa using h1⟩
          · exact Or.inr h

/-- Size bookkeeping of the read loop: starting under the batch size, a
full-batch exit returns exactly `batch_size` sequences, and an end-of-corpus
exit returns at least the accumulator and strictly fewer than `batch_size`
sequences. -/
lemma readLoop_len (dict : Line → List Nat) (bs : Nat) (msl : Option Nat) :
    ∀ (stream : List (Option Line)) (acc : List (List Nat)),
      acc.length < bs →
      ((readLoop dict bs msl stream acc).2.1 = false →
        (readLoop dict bs msl stream acc).1.length = bs) ∧
      ((readLoop dict bs msl stream acc).2.1 = true →
        acc.length ≤ (readLoop dict bs msl stream acc).1.length ∧
        (readLoop dict bs msl stream acc).1.length < bs) := by
  intro stream
  induction stream with
  | nil => intro acc hacc; simp [readLoop_nil, hacc]
  | cons o rest ih =>
    intro acc hacc
    cases o with
    | none => simp [readLoop_none, hacc]
    | some line =>
      rcases Bool.eq_false_or_eq_true (skipLine msl line) with hskip | hskip
      · have h := ih acc hacc
        rw [readLoop_skip dict bs msl line rest acc hskip]
        simpa using h
      · by_cases hfull : bs ≤ acc.length + 1
        · have hlen : acc.length + 1 = bs := by omega
          simp [readLoop_keep_full dict bs msl line rest acc hskip hfull, hlen]
        · have h := ih (acc ++ [dict line]) (by simp; omega)
          rw [readLoop_keep dict bs msl line rest acc hskip hfull]
          refine ⟨fun hf => h.1 hf, fun ht => ⟨?_, (h.2 ht).2⟩⟩
          have := (h.2 ht).1
          simp only [List.length_append, List.length_cons,
            List.length_nil] at this
          show acc.length ≤ (readLoop dict bs msl rest (acc ++ [dict line])).1.length
          omega

/-- Trace characterization of the read loop over a stream of real lines
(no `none` element): the returned sequences extend the accumulator with the
dictionary images of the non-skipped lines among the first `n` consumed, `n`
never exceeds the stream, an end-of-corpus exit consumes the whole stream,
and a full-batch exit consumes at least one line. -/
lemma readLoop_lines (dict : Line → List Nat) (bs : Nat) (msl : Option Nat) :
    ∀ (lines : List Line) (acc : List (List Nat)),
      (readLoop dict bs msl (lines.map some) acc).1 =
        acc ++ (((lines.take (readLoop dict bs msl (lines.map some) acc).2.2).filter
          (fun l => !skipLine msl l)).map dict) ∧
      (readLoop dict bs msl (lines.map some) acc).2.2 ≤ lines.length ∧
      ((readLoop dict bs msl (lines.map some) acc).2.1 = true →
        (readLoop dict bs msl (lines.map some) acc).2.2 = lines.length) ∧
      ((readLoop dict bs msl (lines.map some) acc).2.1 = false →
        1 ≤ (readLoop dict bs msl (lines.map some) acc).2.2) := by
  intro lines
  induction lines with
  | nil => intro acc; simp [readLoop_nil]
  | cons line rest ih =>
    intro acc
    rcases Bool.eq_false_or_eq_true (skipLine msl line) with hskip | hskip
    · have h := ih acc
      rw [List.map_cons, readLoop_skip dict bs msl line (rest.map some) acc hskip]
      refine ⟨?_, ?_, ?_, ?_⟩
      · show (readLoop dict bs msl (rest.map some) acc).1 = _
        rw [h.1]
        simp [List.take_cons, hskip]
      · show (readLoop dict bs msl (rest.map some) acc).2.2 + 1 ≤
          rest.length + 1
        have := h.2.1
        omega
      · intro he
        have := h.2.2.1 he
        show (readLoop dict bs msl (rest.map some) acc).2.2 + 1 =
          rest.length + 1
        omega
      · intro _
        show 1 ≤ (readLoop dict bs msl (rest.map some) acc).2.2 + 1
        omega
    · by_cases hfull : bs ≤ acc.length + 1
      · rw [List.map_cons,
          readLoop_keep_full dict bs msl line (rest.map some) acc hskip hfull]
        refine ⟨?_, ?_, ?_, ?_⟩
        · simp [List.take_cons, hskip]
        · show 1 ≤ rest.length + 1
          omega
        · intro he
          exact absurd he (by simp)
        · intro _
          exact le_refl 1
      · have h := ih (acc ++ [dict line])
        rw [List.map_cons,
          readLoop_keep dict bs msl line (rest.map some) acc hskip hfull]
        refine ⟨?_, ?_, ?_, ?_⟩
        · show (readLoop dict bs msl (rest.map some) (acc ++ [dict line])).1 = _
          rw [h.1]
          simp [List.take_cons, hskip]
        · show (readLoop dict bs msl (rest.map some)
              (acc ++ [dict line])).2.2 + 1 ≤ rest.length + 1
          have := h.2.1
          omega
        · intro he
          have := h.2.2.1 he
          show (readLoop dict bs msl (rest.map some)
              (acc ++ [dict line])).2.2 + 1 = rest.length + 1
          omega
        · intro _
          show 1 ≤ (readLoop dict bs msl (rest.map some)
              (acc ++ [dict line])).2.2 + 1
          omega

/-- C1: for every non-empty list of sequences `S` (each a non-empty list of
non-negative integers), `_prepare_minibatch` returns two matrices `ids` and
`mask` of identical shape `(max(len(s) for s in S) + 1, len(S))`, and for
every sequence index `i` and time `t` in range: `mask[t][i] = 1` iff
`t ≤ len(S[i])`; `ids[t][i] = S[i][t]` when `t < len(S[i])`, and
`ids[t][i] = 0` when `t ≥ len(S[i])`. -/
theorem C1_batch_shaping (S : List (List Nat)) (hS : S ≠ [])
    (hall : ∀ s ∈ S, s ≠ []) :
    ∃ T ids mask,
      prepare_minibatch S = some (ids, mask) ∧
      (∀ s ∈ S, s.length ≤ T) ∧ (∃ s ∈ S, s.length = T) ∧
      ids.length = T + 1 ∧ mask.length = T + 1 ∧
      (∀ row ∈ ids, row.length = S.length) ∧
      (∀ row ∈ mask, row.length = S.length) ∧
      (∀ t i, t < T + 1 → i < S.length →
        (((mask.getD t []).getD i 0 = 1) ↔ t ≤ (S.getD i []).length) ∧
        (t < (S.getD i []).length →
          (ids.getD t []).getD i 0 = (S.getD i []).getD t 0) ∧
        ((S.getD i []).length ≤ t → (ids.getD t []).getD i 0 = 0)) := by
  obtain ⟨s0, S', rfl⟩ : ∃ s0 S', S = s0 :: S' := by
    cases S with
    | nil => exact absurd rfl hS
    | cons a l => exact ⟨a, l, rfl⟩
  set S := s0 :: S' with hSdef
  obtain ⟨T, hT⟩ : ∃ T, numpy_max (S.map List.length) = some T :=
    ⟨_, rfl⟩
  have hTspec := numpy_max_spec hT
  refine ⟨T, word_ids_matrix S (T + 1), mask_matrix S (T + 1), ?_, ?_, ?_,
    ?_, ?_, ?_, ?_, ?_⟩
  · rw [prepare_minibatch, hT]
  · intro s hs
    exact hTspec.1 s.length (List.mem_map_of_mem List.length hs)
  · obtain ⟨s, hs, hlen⟩ := List.mem_map.mp hTspec.2
    exact ⟨s, hs, hlen⟩
  · simp [word_ids_matrix]
  · simp [mask_matrix]
  · intro row hrow
    obtain ⟨t, _, rfl⟩ := List.mem_map.mp hrow
    simp
  · intro row hrow
    obtain ⟨t, _, rfl⟩ := List.mem_map.mp hrow
    simp
  · intro t i ht hi
    have hids : (word_ids_matrix S (T + 1)).getD t [] =
        S.map (fun s => if t < s.length then s.getD t 0 else 0) :=
      getD_map_range _ _ ht
    have hmask : (mask_matrix S (T + 1)).getD t [] =
        S.map (fun s => if t < s.length + 1 then 1 else 0) :=
      getD_map_range _ _ ht
    refine ⟨?_, ?_, ?_⟩
    · rw [hmask, getD_map_list _ _ _ [] hi]
      by_cases hcase : t < (S.getD i []).length + 1
      · simp only [if_pos hcase]
        exact ⟨fun _ => by omega, fun _ => trivial⟩
      · simp only [if_neg hcase]
        constructor
        · intro h0; exact absurd h0 (by norm_num)
        · intro hle; omega
    · intro htlt
      rw [hids, getD_map_list _ _ _ [] hi, if_pos htlt]
    · intro htge
      rw [hids, getD_map_list _ _ _ [] hi, if_neg (by omega)]

/-- C1 witness: the theorem applied to the concrete input `[[1, 2], [3]]`,
whose hypotheses hold by computation. -/
theorem C1_batch_shaping_witness :
    ∃ T ids mask, prepare_minibatch [[1, 2], [3]] = some (ids, mask) ∧
      T + 1 = ids.length := by
  obtain ⟨T, ids, mask, heq, -, -, hlen, -⟩ :=
    C1_batch_shaping [[1, 2], [3]] (by decide) (by decide)
  exact ⟨T, ids, mask, heq, hlen.symm⟩

/-- C8: invoking `_prepare_minibatch` with an empty list of sequences raises
an error (the `ValueError` from `numpy.max` on a zero-size array, modelled as
`none`) rather than returning a degenerate pair of zero-sized matrices. -/
theorem C8_empty_batch_errors : prepare_minibatch [] = none := rfl

/-! ## One full epoch of pulls

`__next__` is pulled repeatedly until it raises `StopIteration`; the batches
produced before that signal form one epoch.  The number of productive pulls
is bounded by the number of lines (sequential) resp. ordering-list entries
(ordered), since every produced batch consumes at least one `_readline`
call that advanced the reader; the bound plus one is used as structural
recursion fuel, which is provably sufficient. -/

/-- Pull `seqNext` up to `fuel` times, collecting the `sequences` lists of
the produced batches until the first `StopIteration`. -/
def seqEpochGo (dict : Line → List Nat) (corpus : List Line)
    (batch_size : Nat) (max_sequence_length : Option Nat) :
    Nat → SeqState → List (List (List Nat))
  | 0, _ => []
  | fuel + 1, s =>
    match seqNext dict corpus batch_size max_sequence_length s with
    | (none, _) => []
    | (some seqs, s') =>
        seqs :: seqEpochGo dict corpus batch_size max_sequence_length fuel s'

/-- One full epoch of the sequential iterator, started at the beginning of
the corpus. -/
def seqEpoch (dict : Line → List Nat) (corpus : List Line)
    (batch_size : Nat) (max_sequence_length : Option Nat) :
    List (List (List Nat)) :=
  seqEpochGo dict corpus batch_size max_sequence_length
    (corpus.length + 1) ⟨0, false⟩

/-- Pull `ordNext` up to `fuel` times, collecting the `sequences` lists of
the produced batches until the first `StopIteration`. -/
def ordEpochGo (dict : Line → List Nat) (corpus : List Line)
    (batch_size : Nat) (max_sequence_length : Option Nat) :
    Nat → OrdState → List (List (List Nat))
  | 0, _ => []
  | fuel + 1, s =>
    match ordNext dict corpus batch_size max_sequence_length s with
    | (none, _) => []
    | (some seqs, s') =>
        seqs :: ordEpochGo dict corpus batch_size max_sequence_length fuel s'

/-- One full epoch of the ordered-replay iterator, started at the first
entry of the ordering list `line_starts`. -/
def ordEpoch (dict : Line → List Nat) (corpus : List Line)
    (batch_size : Nat) (max_sequence_length : Option Nat)
    (line_starts : List Nat) : List (List (List Nat)) :=
  ordEpochGo dict corpus batch_size max_sequence_length
    (line_starts.length + 1) ⟨line_starts, 0, 0, false⟩

/-- Reference recursion for epoch proofs: the same pull loop expressed
directly on the stream of not-yet-consumed lines, dropping the consumed
prefix after each produced batch. -/
def streamGo (dict : Line → List Nat) (batch_size : Nat)
    (max_sequence_length : Option Nat) :
    Nat → List (Option Line) → List (List (List Nat))
  | 0, _ => []
  | fuel + 1, stream =>
    match readLoop dict batch_size max_sequence_length stream [] with
    | (seqs, false, n) =>
        seqs :: streamGo dict batch_size max_sequence_length fuel
          (stream.drop n)
    | (seqs, true, _) => if seqs.isEmpty then [] else [seqs]

/-- C2: when the read loop ends at end-of-corpus with one or more accumulated
sequences, `__next__` returns the batch built from them (the
`_prepare_minibatch` call succeeds) and sets the `end_of_file` flag, so the
immediately following pull clears the flag, resets the cursor to the start,
and raises `StopIteration` without producing a batch; with zero accumulated
sequences it resets the cursor immediately and raises `StopIteration`. -/
theorem C2_two_step_exhaustion (dict : Line → List Nat) (corpus : List Line)
    (bs : Nat) (msl : Option Nat) (pos n : Nat) (seqs : List (List Nat))
    (h : readLoop dict bs msl (seqStream corpus pos) [] = (seqs, true, n)) :
    (seqs ≠ [] →
      seqNext dict corpus bs msl ⟨pos, false⟩ = (some seqs, ⟨pos + n, true⟩) ∧
      (∃ b, prepare_minibatch seqs = some b) ∧
      seqNext dict corpus bs msl ⟨pos + n, true⟩ = (none, ⟨0, false⟩)) ∧
    (seqs = [] →
      seqNext dict corpus bs msl ⟨pos, false⟩ = (none, ⟨0, false⟩)) := by
  constructor
  · intro hne
    obtain ⟨q, qs, rfl⟩ : ∃ q qs, seqs = q :: qs := by
      cases seqs with
      | nil => exact absurd rfl hne
      | cons q qs => exact ⟨q, qs, rfl⟩
    refine ⟨?_, ⟨_, rfl⟩, ?_⟩
    · simp only [seqNext, Bool.false_eq_true, if_false, h]
      rfl
    · simp [seqNext, SeqState.reset]
  · intro he
    subst he
    simp only [seqNext, Bool.false_eq_true, if_false, h]
    rfl

/-- C2 witness: the theorem applied to the one-line corpus `[["a"]]` with
`batch_size = 2`, where the loop ends at end-of-corpus holding one
sequence. -/
theorem C2_two_step_exhaustion_witness :
    seqNext (fun l => l.map String.length) [["a"]] 2 none ⟨0, false⟩ =
      (some [[1]], ⟨1, true⟩) ∧
    seqNext (fun l => l.map String.length) [["a"]] 2 none ⟨1, true⟩ =
      (none, ⟨0, false⟩) := by
  have h := (C2_two_step_exhaustion (fun l => l.map String.length) [["a"]] 2
    none 0 1 [[1]] (by decide)).1 (by decide)
  exact ⟨h.1, h.2.2⟩

/-- C3: after any exhaustion signal (`StopIteration`) from `__next__`, in
either variant, the cursor is back at the start — sequential: file position
0; ordered-replay: traversal index 0 — with the `end_of_file` flag cleared,
so the very next pull reads from the first line of the corpus (resp. the
first entry of the ordering list). -/
theorem C3_restart_law (dict : Line → List Nat) (corpus : List Line)
    (bs : Nat) (msl : Option Nat) :
    (∀ s s' : SeqState, seqNext dict corpus bs msl s = (none, s') →
      s'.pos = 0 ∧ s'.end_of_file = false) ∧
    (∀ s s' : OrdState, ordNext dict corpus bs msl s = (none, s') →
      s'.next_line = 0 ∧ s'.end_of_file = false) := by
  constructor
  · intro s s' h
    rcases Bool.eq_false_or_eq_true s.end_of_file with he | he
    · rw [seqNext, he] at h
      simp only [if_true] at h
      have h2 : SeqState.reset { s with end_of_file := false } = s' := by
        simpa using h
      rw [← h2]
      exact ⟨rfl, rfl⟩
    · rw [seqNext, he] at h
      simp only [Bool.false_eq_true, if_false] at h
      rcases hr : readLoop dict bs msl (seqStream corpus s.pos) [] with
        ⟨seqs, eof, n⟩
      rw [hr] at h
      cases eof with
      | false => simp at h
      | true =>
        cases hemp : seqs.isEmpty with
        | false => simp [hemp] at h
        | true =>
          have h2 : SeqState.reset { pos := s.pos + n, end_of_file := false } =
              s' := by
            simpa [hemp] using h
          rw [← h2]
          exact ⟨rfl, rfl⟩
  · intro s s' h
    rcases Bool.eq_false_or_eq_true s.end_of_file with he | he
    · rw [ordNext, he] at h
      simp only [if_true] at h
      have h2 : OrdState.reset { s with end_of_file := false } = s' := by
        simpa using h
      rw [← h2]
      exact ⟨rfl, rfl⟩
    · rw [ordNext, he] at h
      simp only [Bool.false_eq_true, if_false] at h
      rcases hr : readLoop dict bs msl (ordStream corpus s) [] with
        ⟨seqs, eof, n⟩
      rw [hr] at h
      cases eof with
      | false => simp at h
      | true =>
        cases hemp : seqs.isEmpty with
        | false => simp [hemp] at h
        | true =>
          have h2 : OrdState.reset (ordAdvance corpus s n) = s' := by
            simpa [hemp] using h
          rw [← h2]
          exact ⟨rfl, by simp [OrdState.reset, ordAdvance, he]⟩

/-- C3 witness: the theorem applied, for both variants, to the empty corpus,
where the first pull signals exhaustion with the cursor reset. -/
theorem C3_restart_law_witness :
    (SeqState.mk 0 false).pos = 0 ∧ (SeqState.mk 0 false).end_of_file = false ∧
    (OrdState.mk [] 0 0 false).next_line = 0 ∧
    (OrdState.mk [] 0 0 false).end_of_file = false := by
  have h1 := (C3_restart_law (fun l => l.map String.length) [] 1 none).1
    ⟨0, false⟩ ⟨0, false⟩ (by decide)
  have h2 := (C3_restart_law (fun l => l.map String.length) [] 1 none).2
    ⟨[], 0, 0, false⟩ ⟨[], 0, 0, false⟩ (by decide)
  exact ⟨h1.1, h1.2, h2.1, h2.2⟩

/-- C4: a corpus line whose word count exceeds `max_sequence_length` never
appears in any batch produced by `__next__` (every sequence of a produced
batch is the dictionary image of a line whose word count is within the
limit), such a line does not count toward the `batch_size` accumulation
(the loop just moves on to the next line), and a line whose word count is
exactly `max_sequence_length` is accumulated. -/
theorem C4_skip_law (dict : Line → List Nat) (corpus : List Line)
    (bs m : Nat) :
    (∀ (s : SeqState) (seqs : List (List Nat)) (s' : SeqState),
      seqNext dict corpus bs (some m) s = (some seqs, s') →
      ∀ q ∈ seqs, ∃ l : Line, l.length ≤ m ∧ q = dict l) ∧
    (∀ (s : OrdState) (seqs : List (List Nat)) (s' : OrdState),
      ordNext dict corpus bs (some m) s = (some seqs, s') →
      ∀ q ∈ seqs, ∃ l : Line, l.length ≤ m ∧ q = dict l) ∧
    (∀ (l : Line) (rest : List (Option Line)) (acc : List (List Nat)),
      m < l.length →
      readLoop dict bs (some m) (some l :: rest) acc =
        ((readLoop dict bs (some m) rest acc).1,
         (readLoop dict bs (some m) rest acc).2.1,
         (readLoop dict bs (some m) rest acc).2.2 + 1)) ∧
    (∀ (l : Line) (rest : List (Option Line)) (acc : List (List Nat)),
      l.length = m →
      readLoop dict bs (some m) (some l :: rest) acc =
        (if bs ≤ acc.length + 1 then (acc ++ [dict l], false, 1)
         else
          ((readLoop dict bs (some m) rest (acc ++ [dict l])).1,
           (readLoop dict bs (some m) rest (acc ++ [dict l])).2.1,
           (readLoop dict bs (some m) rest (acc ++ [dict l])).2.2 + 1))) := by
  have hkept : ∀ (stream : List (Option Line)) (seqs : List (List Nat))
      (eof : Bool) (n : Nat),
      readLoop dict bs (some m) stream [] = (seqs, eof, n) →
      ∀ q ∈ seqs, ∃ l : Line, l.length ≤ m ∧ q = dict l := by
    intro stream seqs eof n hr q hq
    have := readLoop_mem dict bs (some m) stream [] q (by rw [hr]; exact hq)
    rcases this with h | ⟨l, hl, rfl⟩
    · simp at h
    · exact ⟨l, by simpa [skipLine] using hl, rfl⟩
  refine ⟨?_, ?_, ?_, ?_⟩
  · intro s seqs s' h q hq
    rcases Bool.eq_false_or_eq_true s.end_of_file with he | he
    · rw [seqNext, he] at h
      simp at h
    · rw [seqNext, he] at h
      simp only [Bool.false_eq_true, if_false] at h
      rcases hr : readLoop dict bs (some m) (seqStream corpus s.pos) [] with
        ⟨seqs0, eof, n⟩
      rw [hr] at h
      cases eof with
      | false =>
        simp at h
        exact hkept _ seqs false n (by rw [hr, h.1]) q hq
      | true =>
        cases hemp : seqs0.isEmpty with
        | true => simp [hemp] at h
        | false =>
          simp [hemp] at h
          exact hkept _ seqs true n (by rw [hr, h.1]) q hq
  · intro s seqs s' h q hq
    rcases Bool.eq_false_or_eq_true s.end_of_file with he | he
    · rw [ordNext, he] at h
      simp at h
    · rw [ordNext, he] at h
      simp only [Bool.false_eq_true, if_false] at h
      rcases hr : readLoop dict bs (some m) (ordStream corpus s) [] with
        ⟨seqs0, eof, n⟩
      rw [hr] at h
      cases eof with
      | false =>
        simp at h
        exact hkept _ seqs false n (by rw [hr, h.1]) q hq
      | true =>
        cases hemp : seqs0.isEmpty with
        | true => simp [hemp] at h
        | false =>
          simp [hemp] at h
          exact hkept _ seqs true n (by rw [hr, h.1]) q hq
  · intro l rest acc hlong
    exact readLoop_skip dict bs (some m) l rest acc
      (by simp [skipLine]; omega)
  · intro l rest acc hexact
    by_cases hfull : bs ≤ acc.length + 1
    · rw [if_pos hfull]
      exact readLoop_keep_full dict bs (some m) l rest acc
        (by simp [skipLine]; omega) hfull
    · rw [if_neg hfull]
      exact readLoop_keep dict bs (some m) l rest acc
        (by simp [skipLine]; omega) hfull

/-- C4 witness: the skip equation of the theorem applied to a two-word line
against `max_sequence_length = 1`, and the boundary equation applied to a
one-word line: the former is dropped, the latter accumulated. -/
theorem C4_skip_law_witness :
    readLoop (fun l => l.map String.length) 2 (some 1) [some ["a", "b"]] [] =
      ((readLoop (fun l => l.map String.length) 2 (some 1) [] []).1,
       (readLoop (fun l => l.map String.length) 2 (some 1) [] []).2.1,
       (readLoop (fun l => l.map String.length) 2 (some 1) [] []).2.2 + 1) ∧
    readLoop (fun l => l.map String.length) 1 (some 1) [some ["a"]] [] =
      (if 1 ≤ ([] : List (List Nat)).length + 1 then ([[1]], false, 1)
       else
        ((readLoop (fun l => l.map String.length) 1 (some 1) [] [[1]]).1,
         (readLoop (fun l => l.map String.length) 1 (some 1) [] [[1]]).2.1,
         (readLoop (fun l => l.map String.length) 1 (some 1) [] [[1]]).2.2 + 1)) := by
  constructor
  · exact (C4_skip_law (fun l => l.map String.length) [] 2 1).2.2.1
      ["a", "b"] [] [] (by decide)
  · exact (C4_skip_law (fun l => l.map String.length) [] 1 1).2.2.2
      ["a"] [] [] (by decide)

/-- C5: `OrderedBatchIterator._readline` signals no-more-lines (the `''`
end-of-corpus marker, modelled `none`) when the traversal index has reached
the length of the ordering list, leaving the state untouched; otherwise it
seeks the corpus source to the byte offset stored at the current index,
reads the line from that position, advances the index by exactly one, and
returns that line. -/
theorem C5_ordered_readline (corpus : List Line) (s : OrdState) :
    (s.line_starts.length ≤ s.next_line →
      ordReadline corpus s = (none, s)) ∧
    (∀ _ : s.next_line < s.line_starts.length,
      s.line_starts.getD s.next_line 0 < corpus.length →
      ordReadline corpus s =
        (some (corpus.getD (s.line_starts.getD s.next_line 0) []),
         { s with next_line := s.next_line + 1,
                  filepos := s.line_starts.getD s.next_line 0 + 1 })) := by
  constructor
  · intro h
    rw [ordReadline, if_pos h]
  · intro hidx hoff
    rw [ordReadline, if_neg (by omega)]
    have h1 : corpus.getD (s.line_starts.getD s.next_line 0) [] =
        corpus[s.line_starts.getD s.next_line 0] := by
      rw [List.getD_eq_getElem?_getD, List.getElem?_eq_getElem hoff]
      rfl
    have h2 : corpus[s.line_starts.getD s.next_line 0]? =
        some (corpus.getD (s.line_starts.getD s.next_line 0) []) := by
      rw [List.getElem?_eq_getElem hoff, h1]
    rw [h2]

/-- C5 witness: the theorem applied to a two-entry ordering list over a
two-line corpus, in both the exhausted-index and the in-range case. -/
theorem C5_ordered_readline_witness :
    ordReadline [["a"], ["b"]] ⟨[1, 0], 2, 0, false⟩ =
      (none, ⟨[1, 0], 2, 0, false⟩) ∧
    ordReadline [["a"], ["b"]] ⟨[1, 0], 0, 0, false⟩ =
      (some ["b"], ⟨[1, 0], 1, 2, false⟩) := by
  constructor
  · exact (C5_ordered_readline [["a"], ["b"]] ⟨[1, 0], 2, 0, false⟩).1
      (by decide)
  · exact (C5_ordered_readline [["a"], ["b"]] ⟨[1, 0], 0, 0, false⟩).2
      (by decide) (by decide)

/-- C9: with a positive `batch_size`, every batch `__next__` returns (in
either variant) is built from at least 1 and at most `batch_size` sequences,
so the `_prepare_minibatch` call it makes never receives an empty list and
always succeeds. -/
theorem C9_batch_size_bounds (dict : Line → List Nat) (corpus : List Line)
    (bs : Nat) (msl : Option Nat) (hbs : 1 ≤ bs) :
    (∀ (s : SeqState) (seqs : List (List Nat)) (s' : SeqState),
      seqNext dict corpus bs msl s = (some seqs, s') →
      1 ≤ seqs.length ∧ seqs.length ≤ bs ∧ prepare_minibatch seqs ≠ none) ∧
    (∀ (s : OrdState) (seqs : List (List Nat)) (s' : OrdState),
      ordNext dict corpus bs msl s = (some seqs, s') →
      1 ≤ seqs.length ∧ seqs.length ≤ bs ∧ prepare_minibatch seqs ≠ none) := by
  have hprep : ∀ seqs : List (List Nat), 1 ≤ seqs.length →
      prepare_minibatch seqs ≠ none := by
    intro seqs hlen
    cases seqs with
    | nil => simp at hlen
    | cons q qs => simp [prepare_minibatch, numpy_max]
  have hcore : ∀ (stream : List (Option Line)) (seqs : List (List Nat))
      (eof : Bool) (n : Nat),
      readLoop dict bs msl stream [] = (seqs, eof, n) →
      (eof = false → seqs.length = bs) ∧
      (eof = true → seqs.length < bs) := by
    intro stream seqs eof n hr
    have h := readLoop_len dict bs msl stream [] (by simpa using hbs)
    rw [hr] at h
    exact ⟨h.1, fun ht => (h.2 ht).2⟩
  constructor
  · intro s seqs s' h
    rcases Bool.eq_false_or_eq_true s.end_of_file with he | he
    · rw [seqNext, he] at h
      simp at h
    · rw [seqNext, he] at h
      simp only [Bool.false_eq_true, if_false] at h
      rcases hr : readLoop dict bs msl (seqStream corpus s.pos) [] with
        ⟨seqs0, eof, n⟩
      rw [hr] at h
      cases eof with
      | false =>
        simp at h
        have := (hcore _ _ _ _ (by rw [hr, h.1])).1 rfl
        exact ⟨by omega, by omega, hprep seqs (by omega)⟩
      | true =>
        cases hemp : seqs0.isEmpty with
        | true => simp [hemp] at h
        | false =>
          simp [hemp] at h
          have hlt := (hcore _ _ _ _ (by rw [hr, h.1])).2 rfl
          have hne : seqs ≠ [] := by
            rw [← h.1]
            simpa [List.isEmpty_iff] using hemp
          have hone : 1 ≤ seqs.length := by
            cases seqs with
            | nil => exact absurd rfl hne
            | cons q qs => simp
          exact ⟨hone, by omega, hprep seqs hone⟩
  · intro s seqs s' h
    rcases Bool.eq_false_or_eq_true s.end_of_file with he | he
    · rw [ordNext, he] at h
      simp at h
    · rw [ordNext, he] at h
      simp only [Bool.false_eq_true, if_false] at h
      rcases hr : readLoop dict bs msl (ordStream corpus s) [] with
        ⟨seqs0, eof, n⟩
      rw [hr] at h
      cases eof with
      | false =>
        simp at h
        have := (hcore _ _ _ _ (by rw [hr, h.1])).1 rfl
        exact ⟨by omega, by omega, hprep seqs (by omega)⟩
      | true =>
        cases hemp : seqs0.isEmpty with
        | true => simp [hemp] at h
        | false =>
          simp [hemp] at h
          have hlt := (hcore _ _ _ _ (by rw [hr, h.1])).2 rfl
          have hne : seqs ≠ [] := by
            rw [← h.1]
            simpa [List.isEmpty_iff] using hemp
          have hone : 1 ≤ seqs.length := by
            cases seqs with
            | nil => exact absurd rfl hne
            | cons q qs => simp
          exact ⟨hone, by omega, hprep seqs hone⟩

/-- C9 witness: the theorem applied to a one-line corpus with
`batch_size = 1`, where `__next__` produces the batch `[[1]]`. -/
theorem C9_batch_size_bounds_witness :
    1 ≤ ([[1]] : List (List Nat)).length ∧
    ([[1]] : List (List Nat)).length ≤ 1 ∧
    prepare_minibatch [[1]] ≠ none := by
  exact (C9_batch_size_bounds (fun l => l.map String.length) [["a"]] 1 none
    (by decide)).1 ⟨0, false⟩ [[1]] ⟨1, false⟩ (by decide)

/-- C10: `OrderedBatchIterator._reset` modifies only the traversal index,
setting it to zero; the ordering list, the underlying corpus source's read
position, and the `end_of_file` flag are unchanged. -/
theorem C10_reset_frame (s : OrdState) :
    (OrdState.reset s).next_line = 0 ∧
    (OrdState.reset s).line_starts = s.line_starts ∧
    (OrdState.reset s).filepos = s.filepos ∧
    (OrdState.reset s).end_of_file = s.end_of_file := by
  simp [OrdState.reset]

/-! ### Epoch lemmas -/

/-- Once `end_of_file` is set, the epoch loop stops at the next pull. -/
lemma seqEpochGo_eof (dict : Line → List Nat) (corpus : List Line)
    (bs : Nat) (msl : Option Nat) :
    ∀ (fuel : Nat) (s : SeqState), s.end_of_file = true →
      seqEpochGo dict corpus bs msl fuel s = [] := by
  intro fuel
  cases fuel with
  | zero => intro s _; rfl
  | succ fuel =>
    intro s hs
    have hnext : seqNext dict corpus bs msl s =
        (none, SeqState.reset { s with end_of_file := false }) := by
      rw [seqNext, hs]
      simp
    simp [seqEpochGo, hnext]

/-- The sequential epoch loop is the stream recursion on the not-yet-read
suffix of the corpus. -/
lemma seqEpochGo_stream (dict : Line → List Nat) (corpus : List Line)
    (bs : Nat) (msl : Option Nat) :
    ∀ (fuel pos : Nat),
      seqEpochGo dict corpus bs msl fuel ⟨pos, false⟩ =
        streamGo dict bs msl fuel (seqStream corpus pos) := by
  intro fuel
  induction fuel with
  | zero => intro pos; rfl
  | succ fuel ih =>
    intro pos
    rcases hr : readLoop dict bs msl (seqStream corpus pos) [] with
      ⟨seqs, eof, n⟩
    have hdrop : (seqStream corpus pos).drop n = seqStream corpus (pos + n) := by
      unfold seqStream
      rw [← List.map_drop, List.drop_drop, Nat.add_comm]
    have hunfoldL : seqEpochGo dict corpus bs msl (fuel + 1) ⟨pos, false⟩ =
        match seqNext dict corpus bs msl ⟨pos, false⟩ with
        | (none, _) => []
        | (some seqs, s') =>
            seqs :: seqEpochGo dict corpus bs msl fuel s' := rfl
    have hunfoldR : streamGo dict bs msl (fuel + 1) (seqStream corpus pos) =
        match readLoop dict bs msl (seqStream corpus pos) [] with
        | (seqs, false, n) =>
            seqs :: streamGo dict bs msl fuel ((seqStream corpus pos).drop n)
        | (seqs, true, _) => if seqs.isEmpty then [] else [seqs] := rfl
    rw [hunfoldL, hunfoldR, hr]
    cases eof with
    | false =>
      have hnext : seqNext dict corpus bs msl ⟨pos, false⟩ =
          (some seqs, ⟨pos + n, false⟩) := by
        rw [seqNext]
        simp only [Bool.false_eq_true, if_false, hr]
      rw [hnext]
      show seqs :: seqEpochGo dict corpus bs msl fuel ⟨pos + n, false⟩ =
        seqs :: streamGo dict bs msl fuel ((seqStream corpus pos).drop n)
      rw [ih (pos + n), hdrop]
    | true =>
      cases hemp : seqs.isEmpty with
      | true =>
        have hnext : seqNext dict corpus bs msl ⟨pos, false⟩ =
            (none, SeqState.reset { pos := pos + n, end_of_file := false }) := by
          rw [seqNext]
          simp only [Bool.false_eq_true, if_false, hr, hemp, if_true]
        rw [hnext]
        show ([] : List (List (List Nat))) =
          if seqs.isEmpty = true then [] else [seqs]
        rw [hemp, if_pos rfl]
      | false =>
        have hnext : seqNext dict corpus bs msl ⟨pos, false⟩ =
            (some seqs, ⟨pos + n, true⟩) := by
          rw [seqNext]
          simp only [Bool.false_eq_true, if_false, hr, hemp]
        rw [hnext]
        show seqs :: seqEpochGo dict corpus bs msl fuel ⟨pos + n, true⟩ =
          if seqs.isEmpty = true then [] else [seqs]
        rw [hemp, if_neg (by simp),
          seqEpochGo_eof dict corpus bs msl fuel ⟨pos + n, true⟩ rfl]

/-- Once `end_of_file` is set, the ordered epoch loop stops at the next
pull. -/
lemma ordEpochGo_eof (dict : Line → List Nat) (corpus : List Line)
    (bs : Nat) (msl : Option Nat) :
    ∀ (fuel : Nat) (s : OrdState), s.end_of_file = true →
      ordEpochGo dict corpus bs msl fuel s = [] := by
  intro fuel
  cases fuel with
  | zero => intro s _; rfl
  | succ fuel =>
    intro s hs
    have hnext : ordNext dict corpus bs msl s =
        (none, OrdState.reset { s with end_of_file := false }) := by
      rw [ordNext, hs]
      simp
    simp [ordEpochGo, hnext]

/-- The ordered epoch loop is the stream recursion on the not-yet-traversed
suffix of the ordering list (looked up in the corpus). -/
lemma ordEpochGo_stream (dict : Line → List Nat) (corpus : List Line)
    (bs : Nat) (msl : Option Nat) (ls : List Nat) :
    ∀ (fuel nl fp : Nat),
      ordEpochGo dict corpus bs msl fuel ⟨ls, nl, fp, false⟩ =
        streamGo dict bs msl fuel
          ((ls.drop nl).map (fun off => corpus[off]?)) := by
  intro fuel
  induction fuel with
  | zero => intro nl fp; rfl
  | succ fuel ih =>
    intro nl fp
    rcases hr : readLoop dict bs msl
        ((ls.drop nl).map (fun off => corpus[off]?)) [] with ⟨seqs, eof, n⟩
    have hstream : ordStream corpus ⟨ls, nl, fp, false⟩ =
        (ls.drop nl).map (fun off => corpus[off]?) := rfl
    have hdrop : ((ls.drop nl).map (fun off => corpus[off]?)).drop n =
        (ls.drop (nl + n)).map (fun off => corpus[off]?) := by
      rw [← List.map_drop, List.drop_drop, Nat.add_comm]
    have hunfoldL : ordEpochGo dict corpus bs msl (fuel + 1)
        ⟨ls, nl, fp, false⟩ =
        match ordNext dict corpus bs msl ⟨ls, nl, fp, false⟩ with
        | (none, _) => []
        | (some seqs, s') =>
            seqs :: ordEpochGo dict corpus bs msl fuel s' := rfl
    have hunfoldR : streamGo dict bs msl (fuel + 1)
        ((ls.drop nl).map (fun off => corpus[off]?)) =
        match readLoop dict bs msl
            ((ls.drop nl).map (fun off => corpus[off]?)) [] with
        | (seqs, false, n) =>
            seqs :: streamGo dict bs msl fuel
              (((ls.drop nl).map (fun off => corpus[off]?)).drop n)
        | (seqs, true, _) => if seqs.isEmpty then [] else [seqs] := rfl
    rw [hunfoldL, hunfoldR, hr]
    cases eof with
    | false =>
      have hnext : ordNext dict corpus bs msl ⟨ls, nl, fp, false⟩ =
          (some seqs, ordAdvance corpus ⟨ls, nl, fp, false⟩ n) := by
        rw [ordNext]
        simp only [Bool.false_eq_true, if_false, hstream, hr]
      rw [hnext]
      show seqs ::
          ordEpochGo dict corpus bs msl fuel
            (ordAdvance corpus ⟨ls, nl, fp, false⟩ n) =
        seqs :: streamGo dict bs msl fuel
          (((ls.drop nl).map (fun off => corpus[off]?)).drop n)
      have hadv : ordAdvance corpus ⟨ls, nl, fp, false⟩ n =
          ⟨ls, nl + n, (ordAdvance corpus ⟨ls, nl, fp, false⟩ n).filepos,
            false⟩ := rfl
      rw [hadv,
        ih (nl + n) ((ordAdvance corpus ⟨ls, nl, fp, false⟩ n).filepos),
        hdrop]
    | true =>
      cases hemp : seqs.isEmpty with
      | true =>
        have hnext : ordNext dict corpus bs msl ⟨ls, nl, fp, false⟩ =
            (none, OrdState.reset
              (ordAdvance corpus ⟨ls, nl, fp, false⟩ n)) := by
          rw [ordNext]
          simp only [Bool.false_eq_true, if_false, hstream, hr, hemp, if_true]
        rw [hnext]
        show ([] : List (List (List Nat))) =
          if seqs.isEmpty = true then [] else [seqs]
        rw [hemp, if_pos rfl]
      | false =>
        have hnext : ordNext dict corpus bs msl ⟨ls, nl, fp, false⟩ =
            (some seqs,
             { ordAdvance corpus ⟨ls, nl, fp, false⟩ n with
                 end_of_file := true }) := by
          rw [ordNext]
          simp only [Bool.false_eq_true, if_false, hstream, hr, hemp]
        rw [hnext]
        show seqs ::
            ordEpochGo dict corpus bs msl fuel
              { ordAdvance corpus ⟨ls, nl, fp, false⟩ n with
                  end_of_file := true } =
          if seqs.isEmpty = true then [] else [seqs]
        rw [hemp, if_neg (by simp),
          ordEpochGo_eof dict corpus bs msl fuel _ rfl]

/-- Joining the batches of the stream recursion over a stream of real lines
(fuel exceeding the stream length) yields the dictionary images of exactly
the non-skipped lines, in order. -/
lemma streamGo_join (dict : Line → List Nat) (bs : Nat) (msl : Option Nat) :
    ∀ (fuel : Nat) (lines : List Line), lines.length < fuel →
      (streamGo dict bs msl fuel (lines.map some)).flatten =
        (lines.filter (fun l => !skipLine msl l)).map dict := by
  intro fuel
  induction fuel with
  | zero => intro lines h; omega
  | succ fuel ih =>
    intro lines h
    rcases hr : readLoop dict bs msl (lines.map some) [] with ⟨seqs, eof, n⟩
    have hchar := readLoop_lines dict bs msl lines []
    rw [hr] at hchar
    cases eof with
    | true =>
      have hn : n = lines.length := hchar.2.2.1 rfl
      have hseqs : seqs =
          (lines.filter (fun l => !skipLine msl l)).map dict := by
        have h1 := hchar.1
        rw [hn, List.take_length] at h1
        simpa using h1
      cases hemp : seqs.isEmpty with
      | true =>
        rw [streamGo, hr]
        show (if seqs.isEmpty = true then ([] : List (List (List Nat)))
            else [seqs]).flatten = _
        rw [hemp, if_pos rfl, ← hseqs]
        simp only [List.flatten_nil]
        exact (List.isEmpty_iff.mp hemp).symm
      | false =>
        rw [streamGo, hr]
        show (if seqs.isEmpty = true then ([] : List (List (List Nat)))
            else [seqs]).flatten = _
        rw [hemp, if_neg (by simp)]
        simp [hseqs]
    | false =>
      have hn1 : 1 ≤ n := hchar.2.2.2 rfl
      have hle : n ≤ lines.length := hchar.2.1
      have hdrop : (lines.map some).drop n = (lines.drop n).map some := by
        rw [← List.map_drop]
      have hrec := ih (lines.drop n) (by rw [List.length_drop]; omega)
      rw [streamGo, hr]
      show (seqs :: streamGo dict bs msl fuel
          ((lines.map some).drop n)).flatten = _
      rw [List.flatten_cons, hdrop, hrec]
      conv_rhs => rw [← List.take_append_drop n lines]
      rw [List.filter_append, List.map_append]
      congr 1
      simpa using hchar.1

/-- Reading back a list from its indices. -/
lemma range_map_getD {α : Type} (l : List α) (d : α) :
    (List.range l.length).map (fun i => l.getD i d) = l := by
  apply List.ext_getElem
  · simp
  · intro n h1 h2
    simp [List.getD_eq_getElem?_getD, List.getElem?_eq_getElem h2]

/-- One sequential epoch produces, in corpus order, the dictionary images of
exactly the non-skipped corpus lines. -/
lemma seqEpoch_join (dict : Line → List Nat) (corpus : List Line)
    (bs : Nat) (msl : Option Nat) :
    (seqEpoch dict corpus bs msl).flatten =
      (corpus.filter (fun l => !skipLine msl l)).map dict := by
  rw [seqEpoch, seqEpochGo_stream]
  have h0 : seqStream corpus 0 = corpus.map some := by
    simp [seqStream]
  rw [h0]
  exact streamGo_join dict bs msl (corpus.length + 1) corpus (by omega)

/-- One ordered epoch over an in-range ordering list produces, in traversal
order, the dictionary images of exactly the non-skipped lines at the listed
offsets. -/
lemma ordEpoch_join (dict : Line → List Nat) (corpus : List Line)
    (bs : Nat) (msl : Option Nat) (ls : List Nat)
    (hvalid : ∀ off ∈ ls, off < corpus.length) :
    (ordEpoch dict corpus bs msl ls).flatten =
      ((ls.map (fun off => corpus.getD off [])).filter
        (fun l => !skipLine msl l)).map dict := by
  rw [ordEpoch, ordEpochGo_stream]
  have hstream : (ls.drop 0).map (fun off => corpus[off]?) =
      (ls.map (fun off => corpus.getD off [])).map some := by
    rw [List.drop_zero, List.map_map]
    apply List.map_congr_left
    intro off hoff
    have h := hvalid off hoff
    simp [Function.comp, List.getD_eq_getElem?_getD,
      List.getElem?_eq_getElem h]
  rw [hstream]
  have := streamGo_join dict bs msl (ls.length + 1)
    (ls.map (fun off => corpus.getD off [])) (by simp)
  exact this

/-- C7: for a corpus of `N` lines and an ordering list that is a permutation
of all `N` line start offsets, with the same dictionary, `batch_size` and
`max_sequence_length`, the multiset of id-sequences produced over one full
epoch by the ordered-replay iterator equals the multiset produced over one
full epoch by the sequential iterator; only the order may differ. -/
theorem C7_ordered_replay_equivalence (dict : Line → List Nat)
    (corpus : List Line) (bs : Nat) (msl : Option Nat) (ls : List Nat)
    (hperm : ls.Perm (List.range corpus.length)) :
    ((ordEpoch dict corpus bs msl ls).flatten : Multiset (List Nat)) =
      ((seqEpoch dict corpus bs msl).flatten : Multiset (List Nat)) := by
  rw [Multiset.coe_eq_coe]
  have hvalid : ∀ off ∈ ls, off < corpus.length := by
    intro off hoff
    have := hperm.mem_iff.mp hoff
    simpa using this
  rw [ordEpoch_join dict corpus bs msl ls hvalid,
    seqEpoch_join dict corpus bs msl]
  have h1 : (ls.map (fun off => corpus.getD off [])).Perm corpus := by
    have h2 := hperm.map (fun off => corpus.getD off [])
    rwa [range_map_getD corpus []] at h2
  exact (h1.filter _).map dict

/-- C7 witness: the theorem applied to a concrete two-line corpus with the
reversed ordering list `[1, 0]`, a permutation of `range 2`. -/
theorem C7_ordered_replay_equivalence_witness :
    ((ordEpoch (fun l => l.map String.length) [["a"], ["b", "c"]] 1 none
        [1, 0]).flatten : Multiset (List Nat)) =
      ((seqEpoch (fun l => l.map String.length) [["a"], ["b", "c"]] 1
        none).flatten : Multiset (List Nat)) :=
  C7_ordered_replay_equivalence (fun l => l.map String.length)
    [["a"], ["b", "c"]] 1 none [1, 0] (by decide)

/-! ## `FreezeLayer` (network/freezelayer.py)

The freeze layer's `__init__` validates its size against its input layers
and `create_structure` concatenates the input layers' symbolic outputs along
axis 2 (the feature axis).  The `output_size` and `_input_layers` attributes
are set by `BasicLayer.__init__`, which is outside this repository; they are
passed to the embedded constructor as arguments.  theano tensors are
modelled as time x batch x features nested lists; the numeric entries are
opaque to the freeze layer and modelled as integers. -/

/-- An input layer as the freeze layer sees it: its declared output size and
its symbolic output. -/
structure SymLayer where
  output_size : Nat
  output : List (List (List Int))
  deriving DecidableEq, Repr

/-- State of a constructed freeze layer: the parsed `switch` flag, the input
layers, the declared output size, and the symbolic output (`None` until
`create_structure` runs, line 43). -/
structure FreezeLayerState where
  switch : Bool
  input_layers : List SymLayer
  output_size : Nat
  output : Option (List (List (List Int)))
  deriving DecidableEq, Repr

/-- The `switch` parsing of `__init__` (lines 27-30): `True` iff the option
is present and equal to the string `"True"`. -/
def freezeSwitch (switch_option : Option String) : Bool :=
  match switch_option with
  | some v => v == "True"
  | none => false

/-- theano `tensor.concatenate(tensors, axis=2)` (lines 52-53):
concatenation of a list of 3-d tensors along the feature axis. -/
def concatenate_axis2 :
    List (List (List (List Int))) → List (List (List Int))
  | [] => []
  | [t] => t
  | t :: ts => List.zipWith (List.zipWith (· ++ ·)) t (concatenate_axis2 ts)

/-- `FreezeLayer.__init__` (lines 21-43): parses `switch`, then checks that
the sum of the input layers' output sizes equals the declared output size,
raising `ValueError` (modelled as `Except.error` with the source's message)
on mismatch (lines 36-41), and initializes `self.output = None` (line 43). -/
def freezeLayer_init (switch_option : Option String)
    (input_layers : List SymLayer) (output_size : Nat) :
    Except String FreezeLayerState :=
  if (input_layers.map SymLayer.output_size).sum ≠ output_size then
    Except.error ("Freeze layer size has to match the previous layer.")
  else
    Except.ok { switch := freezeSwitch switch_option,
                input_layers := input_layers,
                output_size := output_size,
                output := none }

/-- `FreezeLayer.create_structure` (lines 45-53): sets `self.output` to the
concatenation of the input layers' outputs along axis 2. -/
def create_structure (st : FreezeLayerState) : FreezeLayerState :=
  { st with
    output := some (concatenate_axis2 (st.input_layers.map SymLayer.output)) }

/-- Entry of a `zipWith` at an in-range index. -/
lemma getD_zipWith {α β γ : Type} (f : α → β → γ) :
    ∀ (as : List α) (bs : List β) (da : α) (db : β) (dc : γ) (t : Nat),
      t < as.length → t < bs.length →
      (List.zipWith f as bs).getD t dc = f (as.getD t da) (bs.getD t db) := by
  intro as
  induction as with
  | nil => intro bs da db dc t ha hb; simp at ha
  | cons a as ih =>
    intro bs da db dc t ha hb
    cases bs with
    | nil => simp at hb
    | cons b bs =>
      cases t with
      | zero => rfl
      | succ t =>
        exact ih bs da db dc t (by simpa using ha) (by simpa using hb)

/-- C6: constructing a freeze layer whose declared output size differs from
the sum of its input layers' output sizes raises a configuration error at
construction time; when the sizes match, construction succeeds and
`create_structure` sets the layer's output to the concatenation of the
input layers' outputs along the feature axis — in particular, for two
well-shaped inputs, entry `(t, b)` of the produced tensor is the
concatenation of the two inputs' `(t, b)` feature vectors. -/
theorem C6_freeze_layer (switch_option : Option String)
    (layers : List SymLayer) (declared : Nat) :
    ((layers.map SymLayer.output_size).sum ≠ declared →
      ∃ msg, freezeLayer_init switch_option layers declared =
        Except.error msg) ∧
    ((layers.map SymLayer.output_size).sum = declared →
      ∃ st, freezeLayer_init switch_option layers declared = Except.ok st ∧
        (create_structure st).output =
          some (concatenate_axis2 (layers.map SymLayer.output))) ∧
    (∀ (x y : List (List (List Int))) (t b : Nat),
      t < x.length → t < y.length →
      b < (x.getD t []).length → b < (y.getD t []).length →
      ((concatenate_axis2 [x, y]).getD t []).getD b [] =
        ((x.getD t []).getD b []) ++ ((y.getD t []).getD b [])) := by
  refine ⟨?_, ?_, ?_⟩
  · intro hne
    exact ⟨_, by rw [freezeLayer_init, if_pos hne]⟩
  · intro heq
    refine ⟨{ switch := freezeSwitch switch_option, input_layers := layers,
              output_size := declared, output := none }, ?_, rfl⟩
    rw [freezeLayer_init, if_neg (by simp [heq])]
  · intro x y t b hx hy hbx hby
    have h2 : concatenate_axis2 [x, y] =
        List.zipWith (List.zipWith (· ++ ·)) x y := rfl
    rw [h2, getD_zipWith (List.zipWith (· ++ ·)) x y [] [] [] t hx hy]
    exact getD_zipWith (· ++ ·) _ _ [] [] [] b hbx hby

/-- C6 witness: two input layers of output sizes 4 and 6; declaring 11
raises the configuration error, declaring 10 succeeds with the concatenated
output. -/
theorem C6_freeze_layer_witness :
    (∃ msg, freezeLayer_init none
        [⟨4, [[[1, 2, 3, 4]]]⟩, ⟨6, [[[5, 6, 7, 8, 9, 10]]]⟩] 11 =
        Except.error msg) ∧
    (∃ st, freezeLayer_init none
        [⟨4, [[[1, 2, 3, 4]]]⟩, ⟨6, [[[5, 6, 7, 8, 9, 10]]]⟩] 10 =
        Except.ok st ∧
      (create_structure st).output =
        some (concatenate_axis2
          [[[[1, 2, 3, 4]]], [[[5, 6, 7, 8, 9, 10]]]])) := by
  constructor
  · exact (C6_freeze_layer none
      [⟨4, [[[1, 2, 3, 4]]]⟩, ⟨6, [[[5, 6, 7, 8, 9, 10]]]⟩] 11).1 (by decide)
  · exact (C6_freeze_layer none
      [⟨4, [[[1, 2, 3, 4]]]⟩, ⟨6, [[[5, 6, 7, 8, 9, 10]]]⟩] 10).2.1 (by decide)

end Theanolm
